import Mathlib

/-!
# Verification of the net-flare consensus subsystem specification

This file gives a shallow embedding of the parts of the Tenderly/net-flare
repository (a go-flare / avalanchego fork) that the specification talks
about, and proves or refutes the specification claims against it.

* Address formatting utilities are embedded from
  avalanchego/utils/formatting/address/address.go.
* The snowman engine default configuration is embedded from
  avalanchego/snow/engine/snowman (DefaultConfigs).
* The Decision Counter ("snowball"), Consensus Tree ("snowman") and
  Poll Manager are not shipped in the provided sources; they are modelled
  from the specification text (sections 4.2, 4.3 and 4.4), as recorded in
  each definition's doc comment.

Go machine integers that the claims touch are all small counters and
weights that the programs never overflow-test; they are embedded as Nat.
Go byte slices are embedded as List Nat, Go strings as List Char, and a
nil slice is distinguished from an empty one with Option.
-/

namespace NetFlare

/-! ## Address formatting (avalanchego/utils/formatting/address/address.go) -/

/-- Errors of the address package: errNoSeparator, errBits5To8, errBits8To5. -/
inductive AddrError where
  | noSeparator
  | bits5To8
  | bits8To5
  deriving DecidableEq, Repr

/-- The separator constant addressSep = "-". -/
def addressSep : Char := Char.ofNat 45

/-- Embeds strings.SplitN(s, sep, 2) for a one-character separator:
returns none when the separator does not occur (Go returns a length-1
slice), otherwise the part before the first separator and the part after. -/
def splitOnFirst (sep : Char) : List Char → Option (List Char × List Char)
  | [] => none
  | c :: cs =>
      if c = sep then some ([], cs)
      else
        match splitOnFirst sep cs with
        | none => none
        | some (a, b) => some (c :: a, b)

/-- ParseBech32 from address.go: in this repository snapshot the body is
the stub that returns hrp "", data []byte{} and a nil error. -/
def ParseBech32 (_addrStr : List Char) : List Char × List Nat × Option AddrError :=
  ([], [], none)

/-- FormatBech32 from address.go: in this repository snapshot the body is
the stub returning the empty string and a nil error. -/
def FormatBech32 (_hrp : List Char) (_payload : List Nat) : List Char × Option AddrError :=
  ([], none)

/-- Result of address.Parse: chain ID alias, bech32 HRP, address bytes
(none stands for the Go nil slice) and error. -/
structure ParseOut where
  chainID : List Char
  hrp : List Char
  addr : Option (List Nat)
  err : Option AddrError
  deriving DecidableEq, Repr

/-- Parse from address.go: splits at the first "-"; with no separator it
returns ("", "", nil, errNoSeparator), otherwise it forwards the part after
the separator to ParseBech32. -/
def Parse (addrStr : List Char) : ParseOut :=
  match splitOnFirst addressSep addrStr with
  | none => ⟨[], [], none, some AddrError.noSeparator⟩
  | some (chainID, rawAddr) =>
      let r := ParseBech32 rawAddr
      ⟨chainID, r.1, some r.2.1, r.2.2⟩

/-- Format from address.go: FormatBech32 on (hrp, addr); on error returns
("", err), otherwise chainIDAlias ++ "-" ++ the bech32 string. -/
def Format (chainIDAlias : List Char) (hrp : List Char) (addr : List Nat) :
    List Char × Option AddrError :=
  let r := FormatBech32 hrp addr
  match r.2 with
  | some e => ([], some e)
  | none => (chainIDAlias ++ addressSep :: r.1, none)

theorem splitOnFirst_eq_none_iff (sep : Char) (s : List Char) :
    splitOnFirst sep s = none ↔ sep ∉ s := by
  induction s with
  | nil => simp [splitOnFirst]
  | cons c cs ih =>
      by_cases hc : c = sep
      · subst hc
        simp [splitOnFirst]
      · simp only [splitOnFirst, if_neg hc, List.mem_cons]
        cases h : splitOnFirst sep cs with
        | none =>
            have hnotin : sep ∉ cs := ih.mp h
            simp only [true_iff]
            intro hmem
            rcases hmem with he | hin
            · exact hc he.symm
            · exact hnotin hin
        | some p =>
            obtain ⟨a, b⟩ := p
            have hin : sep ∈ cs := by
              by_contra hno
              rw [ih.mpr hno] at h
              exact absurd h (by simp)
            simp [hin]

theorem splitOnFirst_append (sep : Char) (a rest : List Char) (hno : sep ∉ a) :
    splitOnFirst sep (a ++ sep :: rest) = some (a, rest) := by
  induction a with
  | nil => simp [splitOnFirst]
  | cons c cs ih =>
      have hc : c ≠ sep := fun he => hno (he ▸ List.mem_cons_self c cs)
      have hcs : sep ∉ cs := fun hin => hno (List.mem_cons_of_mem c hin)
      simp only [List.cons_append, splitOnFirst, if_neg hc, List.append_eq, ih hcs]

/-- C9: address.Parse errs exactly when the input has no "-" separator, and
in that case it returns empty chain ID alias, empty HRP and a nil byte
slice together with errNoSeparator. -/
theorem Parse_err_iff_no_separator (s : List Char) :
    ((Parse s).err ≠ none ↔ addressSep ∉ s)
    ∧ (addressSep ∉ s → Parse s = ⟨[], [], none, some AddrError.noSeparator⟩) := by
  constructor
  · cases h : splitOnFirst addressSep s with
    | none =>
        have := (splitOnFirst_eq_none_iff addressSep s).mp h
        simp [Parse, h, this]
    | some p =>
        obtain ⟨a, b⟩ := p
        have hin : addressSep ∈ s := by
          by_contra hno
          rw [(splitOnFirst_eq_none_iff addressSep s).mpr hno] at h
          exact absurd h (by simp)
        simp [Parse, h, ParseBech32, hin]
  · intro hno
    rw [Parse, (splitOnFirst_eq_none_iff addressSep s).mpr hno]

/-- Witness for C9 at the concrete separator-free input "X". -/
theorem Parse_err_iff_no_separator_witness :
    addressSep ∉ [Char.ofNat 88]
    ∧ Parse [Char.ofNat 88] = ⟨[], [], none, some AddrError.noSeparator⟩ :=
  ⟨by decide, (Parse_err_iff_no_separator [Char.ofNat 88]).2 (by decide)⟩

/-- C10: when the chain ID alias contains no "-", a successful
address.Format followed by address.Parse recovers the same chain ID alias
(and Parse does not err). -/
theorem Format_Parse_chainID (cid hrp : List Char) (addr : List Nat)
    (hno : addressSep ∉ cid) :
    (Format cid hrp addr).2 = none
    ∧ (Parse (Format cid hrp addr).1).err = none
    ∧ (Parse (Format cid hrp addr).1).chainID = cid := by
  have hfmt : Format cid hrp addr = (cid ++ addressSep :: [], none) := by
    rw [Format, FormatBech32]
  rw [hfmt]
  refine ⟨rfl, ?_, ?_⟩
  · simp [Parse, splitOnFirst_append addressSep cid [] hno, ParseBech32]
  · simp [Parse, splitOnFirst_append addressSep cid [] hno]

/-- Witness for C10 at the concrete chain ID alias "P". -/
theorem Format_Parse_chainID_witness :
    addressSep ∉ [Char.ofNat 80]
    ∧ (Format [Char.ofNat 80] [] []).2 = none
    ∧ (Parse (Format [Char.ofNat 80] [] []).1).err = none
    ∧ (Parse (Format [Char.ofNat 80] [] []).1).chainID = [Char.ofNat 80] := by
  have h := Format_Parse_chainID [Char.ofNat 80] [] [] (by decide)
  exact ⟨by decide, h.1, h.2.1, h.2.2⟩

/-! ## Snowman engine default configuration
(avalanchego/snow/engine/snowman, DefaultConfigs) -/

/-- snowball.Parameters as instantiated by the snowman engine
configuration; the numeric protocol parameters, embedded as Nat. -/
structure Parameters where
  K : Nat
  Alpha : Nat
  BetaVirtuous : Nat
  BetaRogue : Nat
  ConcurrentRepolls : Nat
  OptimalProcessing : Nat
  MaxOutstandingItems : Nat
  MaxItemProcessingTime : Nat
  MixedQueryNumPushNonVdr : Nat
  deriving DecidableEq, Repr

/-- The snowman engine Config, restricted to its parameter payload: the
remaining Go fields (Ctx, VM, Sender, Validators, Consensus) are external
collaborator wiring with no numeric content. -/
structure Config where
  Params : Parameters
  deriving DecidableEq, Repr

/-- DefaultConfigs from the snowman engine sources: the snowball parameter
set it installs. -/
def DefaultConfigs : Config :=
  { Params :=
      { K := 1
        Alpha := 1
        BetaVirtuous := 1
        BetaRogue := 2
        ConcurrentRepolls := 1
        OptimalProcessing := 100
        MaxOutstandingItems := 1
        MaxItemProcessingTime := 1
        MixedQueryNumPushNonVdr := 1 } }

/-- C8: the snowman engine default configuration sets BetaVirtuous to 1 and
BetaRogue to 2, so the rogue confidence threshold is strictly greater than
the virtuous one. -/
theorem DefaultConfigs_betaRogue_gt_betaVirtuous :
    DefaultConfigs.Params.BetaVirtuous = 1
    ∧ DefaultConfigs.Params.BetaRogue = 2
    ∧ DefaultConfigs.Params.BetaVirtuous < DefaultConfigs.Params.BetaRogue :=
  ⟨rfl, rfl, by decide⟩

/-! ## Decision Counter ("snowball")

The snowball sources are not among the provided files; the component is
modelled from the specification, section 4.2. -/

/-- Modelled from the spec: the fixed snowball protocol parameters — alpha
(quorum weight per poll) and the confidence thresholds betaVirtuous and
betaRogue. The snowball parameter sources are not in the provided files. -/
structure SnowballParams where
  alpha : Nat
  betaVirtuous : Nat
  betaRogue : Nat
  deriving DecidableEq, Repr

/-- Modelled from the spec: the Decision Counter state — current
preference, confidence counter, and whether the underlying choice set has
a known conflict (rogue) or none (virtuous). -/
structure Snowball where
  pref : Nat
  confidence : Nat
  rogue : Bool
  deriving DecidableEq, Repr

/-- Total weight a tally (association list choice → weight) assigns to one
choice. -/
def tallyWeight (t : List (Nat × Nat)) (c : Nat) : Nat :=
  (t.map (fun p => if p.1 = c then p.2 else 0)).sum

/-- Earliest listed choice achieving the maximal value of w. -/
def argmaxChoice (w : Nat → Nat) : List Nat → Option Nat
  | [] => none
  | k :: ks =>
      match argmaxChoice w ks with
      | none => some k
      | some b => if w b ≤ w k then some k else some b

/-- Modelled from the spec: the round leader — the choice with maximal
weight in the tally, provided some choice's weight reaches alpha;
otherwise there is no leader this round. -/
def leader (alpha : Nat) (t : List (Nat × Nat)) : Option Nat :=
  match argmaxChoice (tallyWeight t) (t.map Prod.fst) with
  | none => none
  | some b => if alpha ≤ tallyWeight t b then some b else none

/-- The counter's confidence threshold for its conflict class. -/
def Snowball.beta (sb : Snowball) (ps : SnowballParams) : Nat :=
  if sb.rogue then ps.betaRogue else ps.betaVirtuous

/-- Modelled from the spec: Finalized() — the confidence has reached the
beta of the relevant conflict class. -/
def Snowball.Finalized (sb : Snowball) (ps : SnowballParams) : Bool :=
  decide (sb.beta ps ≤ sb.confidence)

/-- Modelled from the spec (section 4.2): RecordPoll(tally). A finalized
counter is a terminal no-op. Otherwise: no leader resets confidence to 0
keeping the preference; a leader equal to the preference increments the
confidence; a different leader becomes the preference with confidence 1. -/
def Snowball.RecordPoll (sb : Snowball) (ps : SnowballParams)
    (t : List (Nat × Nat)) : Snowball :=
  if sb.Finalized ps then sb
  else
    match leader ps.alpha t with
    | none => { sb with confidence := 0 }
    | some l =>
        if l = sb.pref then { sb with confidence := sb.confidence + 1 }
        else { pref := l, confidence := 1, rogue := sb.rogue }

/-- Folding a sequence of polls through RecordPoll. -/
def Snowball.runPolls (sb : Snowball) (ps : SnowballParams)
    (ts : List (List (Nat × Nat))) : Snowball :=
  ts.foldl (fun s t => s.RecordPoll ps t) sb

theorem argmaxChoice_eq_none_iff (w : Nat → Nat) (l : List Nat) :
    argmaxChoice w l = none ↔ l = [] := by
  cases l with
  | nil => simp [argmaxChoice]
  | cons k ks =>
      simp only [argmaxChoice]
      cases argmaxChoice w ks with
      | none => simp
      | some b =>
          by_cases hb : w b ≤ w k <;> simp [hb]

theorem argmaxChoice_spec (w : Nat → Nat) (l : List Nat) (b : Nat)
    (h : argmaxChoice w l = some b) : b ∈ l ∧ ∀ k ∈ l, w k ≤ w b := by
  induction l generalizing b with
  | nil => exact absurd h (by simp [argmaxChoice])
  | cons k ks ih =>
      simp only [argmaxChoice] at h
      cases hks : argmaxChoice w ks with
      | none =>
          rw [hks] at h
          have hkeq : b = k := by
            simpa using h.symm
          subst hkeq
          have hnil : ks = [] := (argmaxChoice_eq_none_iff w ks).mp hks
          subst hnil
          exact ⟨List.mem_cons_self b [], by simp⟩
      | some c =>
          rw [hks] at h
          dsimp only at h
          obtain ⟨hc_mem, hc_max⟩ := ih c hks
          by_cases hcw : w c ≤ w k
          · rw [if_pos hcw] at h
            have hkeq : b = k := by simpa using h.symm
            subst hkeq
            refine ⟨List.mem_cons_self b ks, ?_⟩
            intro x hx
            rcases List.mem_cons.mp hx with hxk | hxks
            · exact hxk ▸ le_refl _
            · exact le_trans (hc_max x hxks) hcw
          · rw [if_neg hcw] at h
            have hceq : b = c := by simpa using h.symm
            subst hceq
            refine ⟨List.mem_cons_of_mem k hc_mem, ?_⟩
            intro x hx
            rcases List.mem_cons.mp hx with hxk | hxks
            · exact hxk ▸ le_of_not_le hcw
            · exact hc_max x hxks

theorem leader_eq_none_iff (alpha : Nat) (t : List (Nat × Nat)) :
    leader alpha t = none ↔ ∀ p ∈ t, tallyWeight t p.1 < alpha := by
  rw [leader]
  cases h : argmaxChoice (tallyWeight t) (t.map Prod.fst) with
  | none =>
      have : t = [] := by
        have := (argmaxChoice_eq_none_iff _ _).mp h
        exact List.map_eq_nil_iff.mp this
      subst this
      simp
  | some b =>
      obtain ⟨hb_mem, hb_max⟩ := argmaxChoice_spec _ _ _ h
      constructor
      · intro hnone p hp
        dsimp only at hnone
        have hlt : ¬ alpha ≤ tallyWeight t b := by
          by_contra hle
          rw [if_pos hle] at hnone
          exact absurd hnone (by simp)
        have hple : tallyWeight t p.1 ≤ tallyWeight t b :=
          hb_max p.1 (List.mem_map_of_mem Prod.fst hp)
        omega
      · intro hall
        obtain ⟨p, hp, hpfst⟩ := List.mem_map.mp hb_mem
        have hblt := hall p hp
        rw [hpfst] at hblt
        dsimp only
        rw [if_neg (by omega)]

theorem leader_eq_some_spec (alpha : Nat) (t : List (Nat × Nat)) (l : Nat)
    (h : leader alpha t = some l) :
    alpha ≤ tallyWeight t l ∧ ∀ p ∈ t, tallyWeight t p.1 ≤ tallyWeight t l := by
  rw [leader] at h
  cases hm : argmaxChoice (tallyWeight t) (t.map Prod.fst) with
  | none => rw [hm] at h; exact absurd h (by simp)
  | some b =>
      rw [hm] at h
      dsimp only at h
      obtain ⟨hb_mem, hb_max⟩ := argmaxChoice_spec _ _ _ hm
      by_cases hle : alpha ≤ tallyWeight t b
      · rw [if_pos hle] at h
        have hbl : b = l := by simpa using h
        subst hbl
        exact ⟨hle, fun p hp => hb_max p.1 (List.mem_map_of_mem Prod.fst hp)⟩
      · rw [if_neg hle] at h
        exact absurd h (by simp)

theorem runPolls_conf_aux (ps : SnowballParams) (c k : Nat) (rg : Bool)
    (ts : List (List (Nat × Nat)))
    (hld : ∀ t ∈ ts, leader ps.alpha t = some c)
    (hlen : k + ts.length ≤ Snowball.beta ⟨c, k, rg⟩ ps) :
    Snowball.runPolls ⟨c, k, rg⟩ ps ts = ⟨c, k + ts.length, rg⟩ := by
  induction ts generalizing k with
  | nil => simp [Snowball.runPolls]
  | cons t ts ih =>
      have hbeta : Snowball.beta ⟨c, k, rg⟩ ps = Snowball.beta ⟨c, k + 1, rg⟩ ps := rfl
      have hfin : Snowball.Finalized ⟨c, k, rg⟩ ps = false := by
        have hlt : k < Snowball.beta ⟨c, k, rg⟩ ps := by
          simp only [List.length_cons] at hlen
          omega
        simp [Snowball.Finalized]
        omega
      have hstep : Snowball.RecordPoll ⟨c, k, rg⟩ ps t = ⟨c, k + 1, rg⟩ := by
        have hl := hld t (List.mem_cons_self t ts)
        simp [Snowball.RecordPoll, hfin, hl]
      have hrun : Snowball.runPolls ⟨c, k, rg⟩ ps (t :: ts) =
          Snowball.runPolls ⟨c, k + 1, rg⟩ ps ts := by
        simp [Snowball.runPolls, hstep]
      rw [hrun, ih (k + 1) (fun u hu => hld u (List.mem_cons_of_mem t hu))
        (by simp only [List.length_cons] at hlen; rw [← hbeta]; omega)]
      have : k + 1 + ts.length = k + (ts.length + 1) := by omega
      rw [this]
      simp

/-- C2: on a non-finalized Decision Counter, RecordPoll behaves by cases
on the round leader (the maximal-weight choice provided it reaches alpha):
no leader resets confidence to 0 with the preference kept; a leader equal
to the preference increments confidence by one; a different leader becomes
the preference with confidence 1. -/
theorem Snowball_RecordPoll_functional (ps : SnowballParams) (sb : Snowball)
    (t : List (Nat × Nat)) (hfin : sb.Finalized ps = false) :
    (leader ps.alpha t = none ↔ ∀ p ∈ t, tallyWeight t p.1 < ps.alpha)
    ∧ (∀ l, leader ps.alpha t = some l →
        ps.alpha ≤ tallyWeight t l ∧ ∀ p ∈ t, tallyWeight t p.1 ≤ tallyWeight t l)
    ∧ (leader ps.alpha t = none →
        sb.RecordPoll ps t = { sb with confidence := 0 })
    ∧ (leader ps.alpha t = some sb.pref →
        sb.RecordPoll ps t = { sb with confidence := sb.confidence + 1 })
    ∧ (∀ l, leader ps.alpha t = some l → l ≠ sb.pref →
        sb.RecordPoll ps t = { pref := l, confidence := 1, rogue := sb.rogue }) := by
  refine ⟨leader_eq_none_iff ps.alpha t, fun l hl => leader_eq_some_spec ps.alpha t l hl,
    ?_, ?_, ?_⟩
  · intro hl
    simp [Snowball.RecordPoll, hfin, hl]
  · intro hl
    simp [Snowball.RecordPoll, hfin, hl]
  · intro l hl hne
    simp [Snowball.RecordPoll, hfin, hl, hne]

/-- Witness for C2: a concrete non-finalized counter adopting a new leader
with confidence 1. -/
theorem Snowball_RecordPoll_functional_witness :
    Snowball.Finalized ⟨0, 0, false⟩ ⟨2, 2, 3⟩ = false
    ∧ Snowball.RecordPoll ⟨0, 0, false⟩ ⟨2, 2, 3⟩ [(1, 2), (0, 1)] = ⟨1, 1, false⟩ := by
  have h := Snowball_RecordPoll_functional ⟨2, 2, 3⟩ ⟨0, 0, false⟩
    [(1, 2), (0, 1)] (by decide)
  exact ⟨by decide, h.2.2.2.2 1 (by decide) (by decide)⟩

/-- C3 as stated fails: with alpha = 3 and only total weight 2 in the
round, a non-finalized counter at confidence 1 has its confidence reset to
0 by RecordPoll, not left at the prior value. -/
theorem RecordPoll_no_quorum_counterexample :
    (∀ p ∈ [((0 : Nat), (2 : Nat))], tallyWeight [(0, 2)] p.1 < 3)
    ∧ Snowball.Finalized ⟨0, 1, false⟩ ⟨3, 2, 3⟩ = false
    ∧ (Snowball.RecordPoll ⟨0, 1, false⟩ ⟨3, 2, 3⟩ [(0, 2)]).confidence ≠
        (Snowball.mk 0 1 false).confidence := by decide

/-- C3 amended: a round in which no choice reaches alpha has no leader; on
a non-finalized counter it resets the confidence to 0 (so the prior value
is kept only when it was already 0) and leaves the preference unchanged. -/
theorem Snowball_RecordPoll_no_quorum (ps : SnowballParams) (sb : Snowball)
    (t : List (Nat × Nat)) (hfin : sb.Finalized ps = false)
    (hq : ∀ p ∈ t, tallyWeight t p.1 < ps.alpha) :
    sb.RecordPoll ps t = { sb with confidence := 0 } := by
  have hl : leader ps.alpha t = none := (leader_eq_none_iff _ _).mpr hq
  simp [Snowball.RecordPoll, hfin, hl]

/-- Witness for the amended C3 at alpha = 3 and total round weight 2. -/
theorem Snowball_RecordPoll_no_quorum_witness :
    Snowball.Finalized ⟨0, 1, false⟩ ⟨3, 2, 3⟩ = false
    ∧ (∀ p ∈ [((0 : Nat), (2 : Nat))], tallyWeight [(0, 2)] p.1 < 3)
    ∧ Snowball.RecordPoll ⟨0, 1, false⟩ ⟨3, 2, 3⟩ [(0, 2)] = ⟨0, 0, false⟩ :=
  ⟨by decide, by decide,
    Snowball_RecordPoll_no_quorum ⟨3, 2, 3⟩ ⟨0, 1, false⟩ [(0, 2)]
      (by decide) (by decide)⟩

/-- C4: starting at confidence 0 with preference C, N consecutive polls
each led by C with quorum weight leave the confidence at exactly N (N up
to the counter's beta, where finalization occurs), and a finalized counter
stays finalized under every further RecordPoll. -/
theorem Snowball_confidence_monotonicity (ps : SnowballParams) (c : Nat)
    (rg : Bool) (ts : List (List (Nat × Nat)))
    (hld : ∀ t ∈ ts, leader ps.alpha t = some c)
    (hlen : ts.length ≤ Snowball.beta ⟨c, 0, rg⟩ ps) :
    (Snowball.runPolls ⟨c, 0, rg⟩ ps ts).confidence = ts.length
    ∧ ∀ (sb : Snowball) (t : List (Nat × Nat)),
        sb.Finalized ps = true → (sb.RecordPoll ps t).Finalized ps = true := by
  constructor
  · rw [runPolls_conf_aux ps c 0 rg ts hld (by simpa using hlen)]
    simp
  · intro sb t hfin
    simp [Snowball.RecordPoll, hfin]

/-- Witness for C4: two quorum rounds for choice 0 with betaVirtuous = 2
reach confidence exactly 2. -/
theorem Snowball_confidence_monotonicity_witness :
    (∀ t ∈ [[((0 : Nat), (1 : Nat))], [(0, 1)]], leader 1 t = some 0)
    ∧ (Snowball.runPolls ⟨0, 0, false⟩ ⟨1, 2, 3⟩ [[(0, 1)], [(0, 1)]]).confidence = 2 := by
  have h := Snowball_confidence_monotonicity ⟨1, 2, 3⟩ 0 false
    [[(0, 1)], [(0, 1)]] (by decide) (by decide)
  exact ⟨by decide, h.1⟩

/-- C5: a finalized Decision Counter is a terminal state — RecordPoll with
any tally returns the whole state unchanged. -/
theorem Snowball_RecordPoll_noop_of_finalized (ps : SnowballParams)
    (sb : Snowball) (t : List (Nat × Nat)) (hfin : sb.Finalized ps = true) :
    sb.RecordPoll ps t = sb := by
  simp [Snowball.RecordPoll, hfin]

/-- Witness for C5: a counter at confidence 2 with betaVirtuous = 2
ignores a further poll. -/
theorem Snowball_RecordPoll_noop_of_finalized_witness :
    Snowball.Finalized ⟨0, 2, false⟩ ⟨1, 2, 3⟩ = true
    ∧ Snowball.RecordPoll ⟨0, 2, false⟩ ⟨1, 2, 3⟩ [(1, 5)] = ⟨0, 2, false⟩ :=
  ⟨by decide,
    Snowball_RecordPoll_noop_of_finalized ⟨1, 2, 3⟩ ⟨0, 2, false⟩ [(1, 5)] (by decide)⟩

/-! ## Poll Manager

The poll manager sources are not among the provided files; the component
is modelled from the specification, sections 3 and 4.4. -/

/-- Modelled from the spec: one poll — the exact set of validator
identities queried, the subject choice, accumulated (voter, choice) votes,
accumulated abstainers and the terminal flag. -/
structure Poll where
  validators : List Nat
  subject : Nat
  votes : List (Nat × Nat)
  abstains : List Nat
  terminal : Bool
  deriving DecidableEq, Repr

/-- A queried validator has responded once it voted or abstained. -/
def Poll.responded (p : Poll) (v : Nat) : Bool :=
  (p.votes.map Prod.fst).contains v || p.abstains.contains v

/-- Every expected validator has responded. -/
def Poll.allResponded (p : Poll) : Bool :=
  p.validators.all fun v => p.responded v

/-- Re-evaluating the terminal flag after a response was recorded: the
poll becomes terminal once every expected voter responded, or once the
outcome is mathematically fixed; the latter depends on the validator
weights and is kept as the abstract test fixed. -/
def Poll.setTerminal (fixed : Poll → Bool) (p : Poll) : Poll :=
  { p with terminal := p.allResponded || fixed p }

/-- The recording branch of a vote: prepend the (voter, choice) pair and
re-evaluate the terminal flag. -/
def Poll.voteRecord (fixed : Poll → Bool) (p : Poll) (voter choice : Nat) : Poll :=
  Poll.setTerminal fixed { p with votes := (voter, choice) :: p.votes }

/-- The recording branch of an abstention: remember the voter as a
non-response and re-evaluate the terminal flag. -/
def Poll.abstainRecord (fixed : Poll → Bool) (p : Poll) (voter : Nat) : Poll :=
  Poll.setTerminal fixed { p with abstains := voter :: p.abstains }

/-- Modelled from the spec (section 4.4): recording one vote inside a
poll. A terminal poll, a voter outside the expected subset, and a voter
who already voted or abstained are ignored; otherwise the vote is recorded
and the terminal flag re-evaluated. -/
def Poll.vote (fixed : Poll → Bool) (p : Poll) (voter choice : Nat) : Poll :=
  if p.terminal then p
  else if p.validators.contains voter = false then p
  else if p.responded voter then p
  else p.voteRecord fixed voter choice

/-- Modelled from the spec (section 4.4): recording a non-response, under
the same ignore conditions as a vote; an abstention is not a vote against
any choice — it only marks the voter as responded. -/
def Poll.abstain (fixed : Poll → Bool) (p : Poll) (voter : Nat) : Poll :=
  if p.terminal then p
  else if p.validators.contains voter = false then p
  else if p.responded voter then p
  else p.abstainRecord fixed voter

/-- Modelled from the spec: the Poll Manager state — the outstanding polls
keyed by requestID. -/
abbrev PollManager := List (Nat × Poll)

/-- Whether a requestID is already outstanding. -/
def hasKey (m : PollManager) (r : Nat) : Bool :=
  m.any fun rp => rp.1 == r

/-- Result of CreatePoll. -/
inductive CreateResult where
  | ok
  | duplicate
  deriving DecidableEq, Repr

/-- Modelled from the spec (section 4.4): CreatePoll — returns duplicate
and changes nothing when the requestID is already outstanding, otherwise
registers a fresh poll with an empty tally and no abstentions. -/
def createPoll (m : PollManager) (reqID : Nat) (validatorSubset : List Nat)
    (subjectChoice : Nat) : PollManager × CreateResult :=
  if hasKey m reqID then (m, CreateResult.duplicate)
  else ((reqID, ⟨validatorSubset, subjectChoice, [], [], false⟩) :: m,
    CreateResult.ok)

/-- Modelled from the spec (section 4.4): Vote(requestID, voterID, choice)
— applied to the outstanding poll with that requestID; an unknown
requestID changes nothing. -/
def mgrVote (fixed : Poll → Bool) (m : PollManager) (reqID voter choice : Nat) :
    PollManager :=
  m.map fun rp =>
    if rp.1 = reqID then (rp.1, rp.2.vote fixed voter choice) else rp

/-- Modelled from the spec (section 4.4): Abstain(requestID, voterID). -/
def mgrAbstain (fixed : Poll → Bool) (m : PollManager) (reqID voter : Nat) :
    PollManager :=
  m.map fun rp =>
    if rp.1 = reqID then (rp.1, rp.2.abstain fixed voter) else rp

theorem map_eq_self_of_mem {α : Type} (f : α → α) (l : List α)
    (h : ∀ a ∈ l, f a = a) : l.map f = l := by
  induction l with
  | nil => rfl
  | cons a as ih =>
      rw [List.map_cons, h a (List.mem_cons_self a as),
        ih fun b hb => h b (List.mem_cons_of_mem a hb)]

theorem Poll.vote_eq_of_responded (fixed : Poll → Bool) (q : Poll) (v c : Nat)
    (hq : q.responded v = true) : q.vote fixed v c = q := by
  rw [Poll.vote]
  by_cases ht : q.terminal = true
  · rw [if_pos ht]
  · rw [if_neg ht]
    by_cases hv : q.validators.contains v = false
    · rw [if_pos hv]
    · rw [if_neg hv, if_pos hq]

theorem Poll.abstain_eq_of_responded (fixed : Poll → Bool) (q : Poll) (v : Nat)
    (hq : q.responded v = true) : q.abstain fixed v = q := by
  rw [Poll.abstain]
  by_cases ht : q.terminal = true
  · rw [if_pos ht]
  · rw [if_neg ht]
    by_cases hv : q.validators.contains v = false
    · rw [if_pos hv]
    · rw [if_neg hv, if_pos hq]

theorem Poll.voteRecord_responded (fixed : Poll → Bool) (p : Poll) (v c : Nat) :
    (p.voteRecord fixed v c).responded v = true := by
  simp [Poll.voteRecord, Poll.setTerminal, Poll.responded]

theorem Poll.abstainRecord_responded (fixed : Poll → Bool) (p : Poll) (v : Nat) :
    (p.abstainRecord fixed v).responded v = true := by
  simp [Poll.abstainRecord, Poll.setTerminal, Poll.responded]

theorem Poll.vote_idem (fixed : Poll → Bool) (p : Poll) (v c : Nat) :
    (p.vote fixed v c).vote fixed v c = p.vote fixed v c := by
  by_cases ht : p.terminal = true
  · have h1 : p.vote fixed v c = p := by rw [Poll.vote, if_pos ht]
    rw [h1]; exact h1
  · by_cases hv : p.validators.contains v = false
    · have h1 : p.vote fixed v c = p := by rw [Poll.vote, if_neg ht, if_pos hv]
      rw [h1]; exact h1
    · by_cases hr : p.responded v = true
      · have h1 : p.vote fixed v c = p := by
          rw [Poll.vote, if_neg ht, if_neg hv, if_pos hr]
        rw [h1]; exact h1
      · have h1 : p.vote fixed v c = p.voteRecord fixed v c := by
          rw [Poll.vote, if_neg ht, if_neg hv, if_neg hr]
        rw [h1]
        exact Poll.vote_eq_of_responded fixed _ v c
          (Poll.voteRecord_responded fixed p v c)

theorem Poll.abstain_idem (fixed : Poll → Bool) (p : Poll) (v : Nat) :
    (p.abstain fixed v).abstain fixed v = p.abstain fixed v := by
  by_cases ht : p.terminal = true
  · have h1 : p.abstain fixed v = p := by rw [Poll.abstain, if_pos ht]
    rw [h1]; exact h1
  · by_cases hv : p.validators.contains v = false
    · have h1 : p.abstain fixed v = p := by rw [Poll.abstain, if_neg ht, if_pos hv]
      rw [h1]; exact h1
    · by_cases hr : p.responded v = true
      · have h1 : p.abstain fixed v = p := by
          rw [Poll.abstain, if_neg ht, if_neg hv, if_pos hr]
        rw [h1]; exact h1
      · have h1 : p.abstain fixed v = p.abstainRecord fixed v := by
          rw [Poll.abstain, if_neg ht, if_neg hv, if_neg hr]
        rw [h1]
        exact Poll.abstain_eq_of_responded fixed _ v
          (Poll.abstainRecord_responded fixed p v)

theorem Poll.vote_ignored (fixed : Poll → Bool) (p : Poll) (v c : Nat)
    (h : p.terminal = true ∨ p.validators.contains v = false
      ∨ p.responded v = true) :
    p.vote fixed v c = p := by
  rcases h with ht | hv | hr
  · rw [Poll.vote, if_pos ht]
  · rw [Poll.vote]
    by_cases ht : p.terminal = true
    · rw [if_pos ht]
    · rw [if_neg ht, if_pos hv]
  · exact Poll.vote_eq_of_responded fixed p v c hr

theorem Poll.abstain_ignored (fixed : Poll → Bool) (p : Poll) (v : Nat)
    (h : p.terminal = true ∨ p.validators.contains v = false
      ∨ p.responded v = true) :
    p.abstain fixed v = p := by
  rcases h with ht | hv | hr
  · rw [Poll.abstain, if_pos ht]
  · rw [Poll.abstain]
    by_cases ht : p.terminal = true
    · rw [if_pos ht]
    · rw [if_neg ht, if_pos hv]
  · exact Poll.abstain_eq_of_responded fixed p v hr

theorem map_comp_eq_map_of_idem {α : Type} (f : α → α) (l : List α)
    (hf : ∀ a, f (f a) = f a) : (l.map f).map f = l.map f := by
  induction l with
  | nil => rfl
  | cons a as ih => rw [List.map_cons, List.map_cons, hf, ih]

/-- C6: delivering the same Vote or Abstain event twice for a
(requestID, voterID) pair results in the same Poll Manager state as
delivering it once; an event with an unknown requestID changes nothing;
and inside a poll a vote or abstention is ignored when the poll is
terminal, when the voter is outside the expected subset, or when the voter
already voted or abstained. -/
theorem PollManager_duplicate_event_idempotent (fixed : Poll → Bool)
    (m : PollManager) (reqID voter choice : Nat) :
    mgrVote fixed (mgrVote fixed m reqID voter choice) reqID voter choice
      = mgrVote fixed m reqID voter choice
    ∧ mgrAbstain fixed (mgrAbstain fixed m reqID voter) reqID voter
      = mgrAbstain fixed m reqID voter
    ∧ (hasKey m reqID = false →
        mgrVote fixed m reqID voter choice = m
        ∧ mgrAbstain fixed m reqID voter = m)
    ∧ (∀ p : Poll,
        p.terminal = true ∨ p.validators.contains voter = false
          ∨ p.responded voter = true →
        p.vote fixed voter choice = p ∧ p.abstain fixed voter = p) := by
  refine ⟨?_, ?_, ?_, ?_⟩
  · simp only [mgrVote]
    apply map_comp_eq_map_of_idem
    intro rp
    by_cases hk : rp.1 = reqID
    · simp [hk, Poll.vote_idem]
    · simp [hk]
  · simp only [mgrAbstain]
    apply map_comp_eq_map_of_idem
    intro rp
    by_cases hk : rp.1 = reqID
    · simp [hk, Poll.abstain_idem]
    · simp [hk]
  · intro hmiss
    have hall : ∀ rp ∈ m, rp.1 ≠ reqID := by
      rw [hasKey, List.any_eq_false] at hmiss
      intro rp hrp he
      have hx := hmiss rp hrp
      simp [he] at hx
    constructor
    · exact map_eq_self_of_mem _ m fun rp hrp => if_neg (hall rp hrp)
    · exact map_eq_self_of_mem _ m fun rp hrp => if_neg (hall rp hrp)
  · intro p h
    exact ⟨Poll.vote_ignored fixed p voter choice h,
      Poll.abstain_ignored fixed p voter h⟩

/-- Witness for C6 at a concrete one-poll manager: a repeated vote is
absorbed and an unknown requestID is a no-op. -/
theorem PollManager_duplicate_event_idempotent_witness :
    mgrVote (fun _ => false)
        (mgrVote (fun _ => false) [(7, ⟨[1, 2], 9, [], [], false⟩)] 7 1 4) 7 1 4
      = mgrVote (fun _ => false) [(7, ⟨[1, 2], 9, [], [], false⟩)] 7 1 4
    ∧ hasKey [(7, (⟨[1, 2], 9, [], [], false⟩ : Poll))] 8 = false
    ∧ mgrVote (fun _ => false) [(7, ⟨[1, 2], 9, [], [], false⟩)] 8 1 4
      = [(7, ⟨[1, 2], 9, [], [], false⟩)] := by
  have h7 := PollManager_duplicate_event_idempotent (fun _ => false)
    [(7, ⟨[1, 2], 9, [], [], false⟩)] 7 1 4
  have h8 := PollManager_duplicate_event_idempotent (fun _ => false)
    [(7, ⟨[1, 2], 9, [], [], false⟩)] 8 1 4
  exact ⟨h7.1, by decide, (h8.2.2.1 (by decide)).1⟩

/-- C7: CreatePoll with an already-outstanding requestID returns duplicate
and leaves the Poll Manager state — in particular the existing poll's
accumulated tally — unchanged. -/
theorem PollManager_createPoll_duplicate (m : PollManager) (reqID : Nat)
    (validatorSubset : List Nat) (subjectChoice : Nat)
    (h : hasKey m reqID = true) :
    createPoll m reqID validatorSubset subjectChoice
      = (m, CreateResult.duplicate) := by
  rw [createPoll, if_pos h]

/-- Witness for C7: a duplicate CreatePoll keeps the existing poll's
accumulated tally [(1, 4)]. -/
theorem PollManager_createPoll_duplicate_witness :
    hasKey [(7, (⟨[1, 2], 9, [(1, 4)], [], false⟩ : Poll))] 7 = true
    ∧ createPoll [(7, ⟨[1, 2], 9, [(1, 4)], [], false⟩)] 7 [3] 5
      = ([(7, ⟨[1, 2], 9, [(1, 4)], [], false⟩)], CreateResult.duplicate) :=
  ⟨by decide,
    PollManager_createPoll_duplicate [(7, ⟨[1, 2], 9, [(1, 4)], [], false⟩)]
      7 [3] 5 (by decide)⟩

/-! ## Consensus Tree ("snowman")

The snowman tree sources are not among the provided files; the component
is modelled from the specification, sections 3 and 4.3, reusing the
section 4.2 counter algorithm per decision point. Items live in an
identity-keyed arena and refer to each other by identity, as the spec's
design notes prescribe. For claim C1 the admitted item set is fixed and
the sequence of polls varies. -/

/-- Item status from the spec's data model (Unknown never occurs once an
item is admitted to the tree). -/
inductive Status where
  | Processing
  | Accepted
  | Rejected
  deriving DecidableEq, Repr

/-- Modelled from the spec: the static shape of the item arena — the
admitted item identities, each item's parent identity and height, and the
genesis item that is already decided; the genesis parent pointer loops on
itself. -/
structure TreeCfg where
  ids : List Nat
  parent : Nat → Nat
  height : Nat → Nat
  genesis : Nat

/-- Well-formedness of the arena per the spec's data model: genesis is an
admitted height-0 item that is its own parent, and every other admitted
item has an admitted parent exactly one height below it. -/
abbrev TreeCfg.WF (cfg : TreeCfg) : Prop :=
  cfg.genesis ∈ cfg.ids
  ∧ cfg.parent cfg.genesis = cfg.genesis
  ∧ cfg.height cfg.genesis = 0
  ∧ ∀ x ∈ cfg.ids, x ≠ cfg.genesis →
      cfg.parent x ∈ cfg.ids ∧ cfg.height x = cfg.height (cfg.parent x) + 1

/-- The parent chain starting at v, followed for fuel steps. -/
def chainUp (cfg : TreeCfg) : Nat → Nat → List Nat
  | 0, v => [v]
  | fuel + 1, v => v :: chainUp cfg fuel (cfg.parent v)

/-- The ancestor path of an item: itself, its parent, and so on — height
many steps, which reaches genesis in a well-formed arena. -/
def ancestorsOf (cfg : TreeCfg) (v : Nat) : List Nat :=
  chainUp cfg (cfg.height v) v

/-- Whether a is v itself or an ancestor of v. -/
def ancestorOrSelf (cfg : TreeCfg) (a v : Nat) : Bool :=
  decide (a ∈ ancestorsOf cfg v)

/-- The admitted children of an item (its self-loop, for genesis, does not
count as a child). -/
def childrenOf (cfg : TreeCfg) (p : Nat) : List Nat :=
  cfg.ids.filter fun c => decide (c ≠ p) && decide (cfg.parent c = p)

/-- y is a sibling of x at the same height: a different item with the same
parent and the same height. -/
abbrev siblingOf (cfg : TreeCfg) (y x : Nat) : Prop :=
  y ≠ x ∧ cfg.parent y = cfg.parent x ∧ cfg.height y = cfg.height x

/-- Modelled from the spec: the mutable consensus-tree state — each item's
status; per decision point (keyed by the parent identity) the sibling
group's Decision Counter preference and confidence; and, to express the
order in which acceptances are applied, the acceptance timestamp of each
item together with the event clock. -/
structure TreeState where
  status : Nat → Status
  pref : Nat → Option Nat
  conf : Nat → Nat
  acceptedAt : Nat → Option Nat
  clock : Nat

/-- Modelled from the spec: the tree's initial state — genesis Accepted
(the bootstrapped ledger point, at event time 0), every other item
Processing, every decision point with no recorded preference and
confidence 0. -/
def initState (cfg : TreeCfg) : TreeState :=
  { status := fun d => if d = cfg.genesis then Status.Accepted else Status.Processing
    pref := fun _ => none
    conf := fun _ => 0
    acceptedAt := fun d => if d = cfg.genesis then some 0 else none
    clock := 1 }

/-- Modelled from the spec (section 4.3): vote propagation — the weight a
tally gives to child c is the total weight of polled items whose ancestry
passes through c, since a vote for a descendant counts as a vote for every
undecided ancestor on its path. -/
def childVotes (cfg : TreeCfg) (t : List (Nat × Nat)) (c : Nat) : Nat :=
  (t.map fun vw => if ancestorOrSelf cfg c vw.1 then vw.2 else 0).sum

/-- The leader among the children of decision point p: the child with
maximal aggregated weight, provided it reaches alpha. -/
def groupLeader (cfg : TreeCfg) (alpha : Nat) (t : List (Nat × Nat)) (p : Nat) :
    Option Nat :=
  match argmaxChoice (childVotes cfg t) (childrenOf cfg p) with
  | none => none
  | some b => if alpha ≤ childVotes cfg t b then some b else none

/-- The beta threshold of a decision point: rogue (a known conflict, two
or more competing children) uses betaRogue, otherwise betaVirtuous. -/
def groupBeta (cfg : TreeCfg) (ps : SnowballParams) (p : Nat) : Nat :=
  if 2 ≤ (childrenOf cfg p).length then ps.betaRogue else ps.betaVirtuous

/-- Modelled from the spec (sections 4.2 and 4.3): one poll applied to one
decision point — section 4.2's counter algorithm run on the aggregated
child weights; a finalized decision point is a terminal no-op. -/
def updateGroup (cfg : TreeCfg) (ps : SnowballParams) (t : List (Nat × Nat))
    (s : TreeState) (p : Nat) : TreeState :=
  if groupBeta cfg ps p ≤ s.conf p then s
  else
    match groupLeader cfg ps.alpha t p with
    | none => { s with conf := fun q => if q = p then 0 else s.conf q }
    | some l =>
        if s.pref p = some l then
          { s with conf := fun q => if q = p then s.conf p + 1 else s.conf q }
        else
          { s with
            pref := fun q => if q = p then some l else s.pref q
            conf := fun q => if q = p then 1 else s.conf q }

/-- One poll applied to every decision point's counter, independently per
height as the spec prescribes. -/
def updateCounters (cfg : TreeCfg) (ps : SnowballParams) (t : List (Nat × Nat))
    (s : TreeState) : TreeState :=
  cfg.ids.foldl (updateGroup cfg ps t) s

/-- Modelled from the spec (section 4.3, decision rule): item x is ready
to be accepted exactly when its decision point is finalized preferring x,
its parent is already Accepted and x itself is still Processing. -/
def accReady (cfg : TreeCfg) (ps : SnowballParams) (s : TreeState) (x : Nat) : Bool :=
  decide (s.status x = Status.Processing)
    && decide (x ≠ cfg.parent x)
    && decide (s.status (cfg.parent x) = Status.Accepted)
    && decide (s.pref (cfg.parent x) = some x)
    && decide (groupBeta cfg ps (cfg.parent x) ≤ s.conf (cfg.parent x))

/-- The first admitted item ready to be accepted, if any. -/
def findAccept (cfg : TreeCfg) (ps : SnowballParams) (s : TreeState) : Option Nat :=
  cfg.ids.find? (accReady cfg ps s)

/-- d lies at or below some sibling of x at x's height. -/
def doomedBy (cfg : TreeCfg) (x d : Nat) : Bool :=
  cfg.ids.any fun y =>
    decide (y ≠ x) && decide (cfg.parent y = cfg.parent x)
      && decide (cfg.height y = cfg.height x) && ancestorOrSelf cfg y d

/-- Modelled from the spec (section 4.3): applying one acceptance — x
becomes Accepted and is timestamped, every sibling of x at its height is
Rejected, and the rejection cascades to those siblings' still-Processing
descendants. -/
def doAccept (cfg : TreeCfg) (s : TreeState) (x : Nat) : TreeState :=
  { s with
    status := fun d =>
      if d = x then Status.Accepted
      else if doomedBy cfg x d && decide (s.status d = Status.Processing) then
        Status.Rejected
      else s.status d
    acceptedAt := fun d => if d = x then some s.clock else s.acceptedAt d
    clock := s.clock + 1 }

/-- Acceptances applied bottom-up, never out of order: each accepted item
is a Processing child of an already-Accepted parent, repeated while some
item is ready (the admitted-item count bounds how many polls can ever be
accepted in one round). -/
def acceptLoop (cfg : TreeCfg) (ps : SnowballParams) : Nat → TreeState → TreeState
  | 0, s => s
  | fuel + 1, s =>
      match findAccept cfg ps s with
      | none => s
      | some x => acceptLoop cfg ps fuel (doAccept cfg s x)

/-- Modelled from the spec (section 4.3): RecordPoll on the tree —
propagate the tally to every decision point's counter, then apply
acceptances bottom-up until no item is ready. -/
def TreeState.recordPoll (cfg : TreeCfg) (ps : SnowballParams)
    (s : TreeState) (t : List (Nat × Nat)) : TreeState :=
  acceptLoop cfg ps cfg.ids.length (updateCounters cfg ps t s)

/-- A sequence of polls applied to the tree. -/
def runPollsTree (cfg : TreeCfg) (ps : SnowballParams) (s : TreeState)
    (polls : List (List (Nat × Nat))) : TreeState :=
  polls.foldl (TreeState.recordPoll cfg ps) s

theorem ancestorsOf_genesis (cfg : TreeCfg) (hwf : cfg.WF) :
    ancestorsOf cfg cfg.genesis = [cfg.genesis] := by
  rw [ancestorsOf, hwf.2.2.1, chainUp]

theorem ancestorsOf_eq_cons (cfg : TreeCfg) (hwf : cfg.WF) (v : Nat)
    (hv : v ∈ cfg.ids) (hg : v ≠ cfg.genesis) :
    ancestorsOf cfg v = v :: ancestorsOf cfg (cfg.parent v) := by
  rw [ancestorsOf, (hwf.2.2.2 v hv hg).2]
  rfl

theorem self_mem_ancestorsOf (cfg : TreeCfg) (v : Nat) : v ∈ ancestorsOf cfg v := by
  rw [ancestorsOf]
  cases cfg.height v with
  | zero => simp [chainUp]
  | succ n => simp [chainUp]

theorem ancestorOrSelf_eq_true_iff (cfg : TreeCfg) (a v : Nat) :
    ancestorOrSelf cfg a v = true ↔ a ∈ ancestorsOf cfg v := by
  rw [ancestorOrSelf]
  exact decide_eq_true_iff

theorem height_pos_of_ne_genesis (cfg : TreeCfg) (hwf : cfg.WF) (v : Nat)
    (hv : v ∈ cfg.ids) (hg : v ≠ cfg.genesis) : cfg.height v ≠ 0 := by
  rw [(hwf.2.2.2 v hv hg).2]
  exact Nat.succ_ne_zero _

theorem eq_genesis_of_height_zero (cfg : TreeCfg) (hwf : cfg.WF) (v : Nat)
    (hv : v ∈ cfg.ids) (hh : cfg.height v = 0) : v = cfg.genesis := by
  by_contra hg
  exact height_pos_of_ne_genesis cfg hwf v hv hg hh

theorem doomedBy_eq_true_iff (cfg : TreeCfg) (x d : Nat) :
    doomedBy cfg x d = true ↔
      ∃ y ∈ cfg.ids, y ≠ x ∧ cfg.parent y = cfg.parent x
        ∧ cfg.height y = cfg.height x ∧ ancestorOrSelf cfg y d = true := by
  simp [doomedBy, List.any_eq_true, Bool.and_eq_true, decide_eq_true_iff, and_assoc]

theorem accReady_spec (cfg : TreeCfg) (ps : SnowballParams) (s : TreeState)
    (x : Nat) (h : accReady cfg ps s x = true) :
    s.status x = Status.Processing ∧ x ≠ cfg.parent x
    ∧ s.status (cfg.parent x) = Status.Accepted
    ∧ s.pref (cfg.parent x) = some x
    ∧ groupBeta cfg ps (cfg.parent x) ≤ s.conf (cfg.parent x) := by
  simpa [accReady, Bool.and_eq_true, decide_eq_true_iff, and_assoc] using h

/-- The inductive safety invariant of the tree: genesis is Accepted; the
parent of an Accepted item is Accepted; siblings of an Accepted item are
Rejected; children of a Rejected item are Rejected; every Accepted item
carries an acceptance time below the clock, strictly above its parent's. -/
structure TreeInv (cfg : TreeCfg) (s : TreeState) : Prop where
  gacc : s.status cfg.genesis = Status.Accepted
  accParent : ∀ x ∈ cfg.ids, x ≠ cfg.genesis → s.status x = Status.Accepted →
    s.status (cfg.parent x) = Status.Accepted
  accSibRej : ∀ x ∈ cfg.ids, s.status x = Status.Accepted →
    ∀ y ∈ cfg.ids, siblingOf cfg y x → s.status y = Status.Rejected
  rejChild : ∀ y ∈ cfg.ids, s.status y = Status.Rejected →
    ∀ d ∈ cfg.ids, d ≠ y → cfg.parent d = y → s.status d = Status.Rejected
  timeSome : ∀ x ∈ cfg.ids, s.status x = Status.Accepted →
    ∃ tx, s.acceptedAt x = some tx ∧ tx < s.clock
  timeParent : ∀ x ∈ cfg.ids, x ≠ cfg.genesis → s.status x = Status.Accepted →
    ∃ tp tx, s.acceptedAt (cfg.parent x) = some tp
      ∧ s.acceptedAt x = some tx ∧ tp < tx

theorem initState_inv (cfg : TreeCfg) (hwf : cfg.WF) : TreeInv cfg (initState cfg) := by
  refine ⟨?_, ?_, ?_, ?_, ?_, ?_⟩
  · simp [initState]
  · intro x _ hxg hacc
    simp [initState, hxg] at hacc
  · intro x hx hacc y hy hsib
    by_cases hxg : x = cfg.genesis
    · subst hxg
      have hy0 : cfg.height y = 0 := by
        rw [hsib.2.2, hwf.2.2.1]
      have hyg : y = cfg.genesis := eq_genesis_of_height_zero cfg hwf y hy hy0
      exact absurd hyg hsib.1
    · simp [initState, hxg] at hacc
  · intro y _ hyrej
    by_cases hyg : y = cfg.genesis <;> simp [initState, hyg] at hyrej
  · intro x _ hacc
    by_cases hxg : x = cfg.genesis
    · subst hxg
      exact ⟨0, by simp [initState], by simp [initState]⟩
    · simp [initState, hxg] at hacc
  · intro x _ hxg hacc
    simp [initState, hxg] at hacc

theorem doAccept_status_eq (cfg : TreeCfg) (s : TreeState) (x d : Nat) :
    (doAccept cfg s x).status d =
      if d = x then Status.Accepted
      else if doomedBy cfg x d && decide (s.status d = Status.Processing) then
        Status.Rejected
      else s.status d := rfl

theorem doAccept_time_eq (cfg : TreeCfg) (s : TreeState) (x d : Nat) :
    (doAccept cfg s x).acceptedAt d =
      if d = x then some s.clock else s.acceptedAt d := rfl

theorem doAccept_clock (cfg : TreeCfg) (s : TreeState) (x : Nat) :
    (doAccept cfg s x).clock = s.clock + 1 := rfl

theorem doAccept_status_self (cfg : TreeCfg) (s : TreeState) (x : Nat) :
    (doAccept cfg s x).status x = Status.Accepted := by
  rw [doAccept_status_eq, if_pos rfl]

theorem doAccept_time_self (cfg : TreeCfg) (s : TreeState) (x : Nat) :
    (doAccept cfg s x).acceptedAt x = some s.clock := by
  rw [doAccept_time_eq, if_pos rfl]

theorem doAccept_time_other (cfg : TreeCfg) (s : TreeState) (x d : Nat)
    (hdx : d ≠ x) : (doAccept cfg s x).acceptedAt d = s.acceptedAt d := by
  rw [doAccept_time_eq, if_neg hdx]

theorem doAccept_acc_mono (cfg : TreeCfg) (s : TreeState) (x d : Nat)
    (h : s.status d = Status.Accepted) :
    (doAccept cfg s x).status d = Status.Accepted := by
  rw [doAccept_status_eq]
  by_cases hdx : d = x
  · rw [if_pos hdx]
  · rw [if_neg hdx, if_neg (by simp [h]), h]

theorem doAccept_rej_mono (cfg : TreeCfg) (s : TreeState) (x d : Nat)
    (hproc : s.status x = Status.Processing)
    (h : s.status d = Status.Rejected) :
    (doAccept cfg s x).status d = Status.Rejected := by
  have hdx : d ≠ x := by
    intro he
    rw [he, hproc] at h
    exact Status.noConfusion h
  rw [doAccept_status_eq, if_neg hdx]
  by_cases hc : (doomedBy cfg x d && decide (s.status d = Status.Processing)) = true
  · rw [if_pos hc]
  · rw [if_neg hc, h]

theorem doAccept_doomed_rej (cfg : TreeCfg) (s : TreeState) (x d : Nat)
    (hdx : d ≠ x) (hdoom : doomedBy cfg x d = true)
    (hnacc : s.status d ≠ Status.Accepted) :
    (doAccept cfg s x).status d = Status.Rejected := by
  rw [doAccept_status_eq, if_neg hdx]
  cases hs : s.status d with
  | Processing => rw [if_pos (by simp [hdoom, hs])]
  | Accepted => exact absurd hs hnacc
  | Rejected => rw [if_neg (by simp [hs])]

theorem doAccept_status_acc_cases (cfg : TreeCfg) (s : TreeState) (x d : Nat)
    (h : (doAccept cfg s x).status d = Status.Accepted) :
    d = x ∨ s.status d = Status.Accepted := by
  by_cases hdx : d = x
  · exact Or.inl hdx
  · right
    rw [doAccept_status_eq, if_neg hdx] at h
    by_cases hc : (doomedBy cfg x d && decide (s.status d = Status.Processing)) = true
    · rw [if_pos hc] at h
      exact Status.noConfusion h
    · rw [if_neg hc] at h
      exact h

theorem doAccept_status_rej_cases (cfg : TreeCfg) (s : TreeState) (x d : Nat)
    (h : (doAccept cfg s x).status d = Status.Rejected) :
    d ≠ x ∧ ((doomedBy cfg x d = true ∧ s.status d = Status.Processing)
      ∨ s.status d = Status.Rejected) := by
  rw [doAccept_status_eq] at h
  by_cases hdx : d = x
  · rw [if_pos hdx] at h
    exact Status.noConfusion h
  · refine ⟨hdx, ?_⟩
    rw [if_neg hdx] at h
    by_cases hc : (doomedBy cfg x d && decide (s.status d = Status.Processing)) = true
    · rw [Bool.and_eq_true] at hc
      exact Or.inl ⟨hc.1, of_decide_eq_true hc.2⟩
    · rw [if_neg hc] at h
      exact Or.inr h

theorem doAccept_inv (cfg : TreeCfg) (ps : SnowballParams) (s : TreeState)
    (x : Nat) (hwf : cfg.WF) (hinv : TreeInv cfg s) (hx : x ∈ cfg.ids)
    (hready : accReady cfg ps s x = true) : TreeInv cfg (doAccept cfg s x) := by
  obtain ⟨hproc, hnp, hpacc, -, -⟩ := accReady_spec cfg ps s x hready
  have hxg : x ≠ cfg.genesis := by
    intro he
    exact hnp (by rw [he]; exact (hwf.2.1).symm)
  refine ⟨?_, ?_, ?_, ?_, ?_, ?_⟩
  · exact doAccept_acc_mono cfg s x cfg.genesis hinv.gacc
  · intro z hz hzg hzacc
    rcases doAccept_status_acc_cases cfg s x z hzacc with hzx | hold
    · subst hzx
      exact doAccept_acc_mono cfg s z _ hpacc
    · exact doAccept_acc_mono cfg s x _ (hinv.accParent z hz hzg hold)
  · intro z hz hzacc y hy hsib
    rcases doAccept_status_acc_cases cfg s x z hzacc with hzx | hold
    · subst hzx
      have hdoom : doomedBy cfg z y = true := by
        rw [doomedBy_eq_true_iff]
        exact ⟨y, hy, hsib.1, hsib.2.1, hsib.2.2,
          (ancestorOrSelf_eq_true_iff cfg y y).mpr (self_mem_ancestorsOf cfg y)⟩
      have hnacc : s.status y ≠ Status.Accepted := by
        intro hyacc
        have hzrej := hinv.accSibRej y hy hyacc z hz
          ⟨fun he => hsib.1 he.symm, hsib.2.1.symm, hsib.2.2.symm⟩
        rw [hproc] at hzrej
        exact Status.noConfusion hzrej
      exact doAccept_doomed_rej cfg s z y hsib.1 hdoom hnacc
    · exact doAccept_rej_mono cfg s x y hproc
        (hinv.accSibRej z hz hold y hy hsib)
  · intro y hy hyrej d hd hdy hpd
    obtain ⟨hyx, hcase⟩ := doAccept_status_rej_cases cfg s x y hyrej
    rcases hcase with ⟨hdoomy, hyproc⟩ | hyold
    · have hdx : d ≠ x := by
        intro he
        subst he
        rw [hpd] at hpacc
        rw [hyproc] at hpacc
        exact Status.noConfusion hpacc
      have hdg : d ≠ cfg.genesis := by
        intro he
        subst he
        rw [hwf.2.1] at hpd
        exact hdy hpd
      have hanc : ancestorsOf cfg d = d :: ancestorsOf cfg y := by
        rw [ancestorsOf_eq_cons cfg hwf d hd hdg, hpd]
      obtain ⟨w, hw, hwx, hwp, hwh, hwanc⟩ := (doomedBy_eq_true_iff cfg x y).mp hdoomy
      have hwancd : ancestorOrSelf cfg w d = true := by
        rw [ancestorOrSelf_eq_true_iff, hanc]
        exact List.mem_cons_of_mem d ((ancestorOrSelf_eq_true_iff cfg w y).mp hwanc)
      have hdoomd : doomedBy cfg x d = true := by
        rw [doomedBy_eq_true_iff]
        exact ⟨w, hw, hwx, hwp, hwh, hwancd⟩
      have hnacc : s.status d ≠ Status.Accepted := by
        intro hdacc
        have hpda := hinv.accParent d hd hdg hdacc
        rw [hpd, hyproc] at hpda
        exact Status.noConfusion hpda
      exact doAccept_doomed_rej cfg s x d hdx hdoomd hnacc
    · exact doAccept_rej_mono cfg s x d hproc
        (hinv.rejChild y hy hyold d hd hdy hpd)
  · intro z hz hzacc
    by_cases hzx : z = x
    · subst hzx
      exact ⟨s.clock, doAccept_time_self cfg s z,
        by rw [doAccept_clock]; omega⟩
    · rcases doAccept_status_acc_cases cfg s x z hzacc with he | hold
      · exact absurd he hzx
      · obtain ⟨tz, htz, hlt⟩ := hinv.timeSome z hz hold
        refine ⟨tz, ?_, by rw [doAccept_clock]; omega⟩
        rw [doAccept_time_other cfg s x z hzx]
        exact htz
  · intro z hz hzg hzacc
    by_cases hzx : z = x
    · subst hzx
      have hpmem : cfg.parent z ∈ cfg.ids := (hwf.2.2.2 z hz hzg).1
      obtain ⟨tp, htp, hltp⟩ := hinv.timeSome (cfg.parent z) hpmem hpacc
      refine ⟨tp, s.clock, ?_, doAccept_time_self cfg s z, hltp⟩
      rw [doAccept_time_other cfg s z (cfg.parent z) (Ne.symm hnp)]
      exact htp
    · rcases doAccept_status_acc_cases cfg s x z hzacc with he | hold
      · exact absurd he hzx
      · obtain ⟨tp, tz, htp, htz, hlt⟩ := hinv.timeParent z hz hzg hold
        have hpz : cfg.parent z ≠ x := by
          intro he
          have hpza := hinv.accParent z hz hzg hold
          rw [he, hproc] at hpza
          exact Status.noConfusion hpza
        refine ⟨tp, tz, ?_, ?_, hlt⟩
        · rw [doAccept_time_other cfg s x (cfg.parent z) hpz]
          exact htp
        · rw [doAccept_time_other cfg s x z hzx]
          exact htz

theorem updateGroup_decisions (cfg : TreeCfg) (ps : SnowballParams)
    (t : List (Nat × Nat)) (s : TreeState) (p : Nat) :
    (updateGroup cfg ps t s p).status = s.status
    ∧ (updateGroup cfg ps t s p).acceptedAt = s.acceptedAt
    ∧ (updateGroup cfg ps t s p).clock = s.clock := by
  rw [updateGroup]
  split
  · exact ⟨rfl, rfl, rfl⟩
  · split
    · exact ⟨rfl, rfl, rfl⟩
    · split
      · exact ⟨rfl, rfl, rfl⟩
      · exact ⟨rfl, rfl, rfl⟩

theorem foldl_updateGroup_decisions (cfg : TreeCfg) (ps : SnowballParams)
    (t : List (Nat × Nat)) (l : List Nat) (s : TreeState) :
    (l.foldl (updateGroup cfg ps t) s).status = s.status
    ∧ (l.foldl (updateGroup cfg ps t) s).acceptedAt = s.acceptedAt
    ∧ (l.foldl (updateGroup cfg ps t) s).clock = s.clock := by
  induction l generalizing s with
  | nil => exact ⟨rfl, rfl, rfl⟩
  | cons p l ih =>
      have h1 := updateGroup_decisions cfg ps t s p
      have h2 := ih (updateGroup cfg ps t s p)
      exact ⟨h2.1.trans h1.1, h2.2.1.trans h1.2.1, h2.2.2.trans h1.2.2⟩

theorem TreeInv.transport (cfg : TreeCfg) {s sNew : TreeState}
    (hst : sNew.status = s.status) (hat : sNew.acceptedAt = s.acceptedAt)
    (hck : sNew.clock = s.clock) (h : TreeInv cfg s) : TreeInv cfg sNew := by
  refine ⟨?_, ?_, ?_, ?_, ?_, ?_⟩
  · rw [hst]; exact h.gacc
  · intro z hz hzg hzacc
    rw [hst]
    rw [hst] at hzacc
    exact h.accParent z hz hzg hzacc
  · intro z hz hzacc y hy hsib
    rw [hst]
    rw [hst] at hzacc
    exact h.accSibRej z hz hzacc y hy hsib
  · intro y hy hyrej d hd hdy hpd
    rw [hst]
    rw [hst] at hyrej
    exact h.rejChild y hy hyrej d hd hdy hpd
  · intro z hz hzacc
    rw [hst] at hzacc
    rw [hat, hck]
    exact h.timeSome z hz hzacc
  · intro z hz hzg hzacc
    rw [hst] at hzacc
    rw [hat]
    exact h.timeParent z hz hzg hzacc

theorem acceptLoop_inv (cfg : TreeCfg) (ps : SnowballParams) (hwf : cfg.WF) :
    ∀ fuel (s : TreeState), TreeInv cfg s → TreeInv cfg (acceptLoop cfg ps fuel s) := by
  intro fuel
  induction fuel with
  | zero => exact fun s h => h
  | succ n ih =>
      intro s h
      rw [acceptLoop]
      cases hf : findAccept cfg ps s with
      | none => exact h
      | some x =>
          exact ih _ (doAccept_inv cfg ps s x hwf h
            (List.mem_of_find?_eq_some hf) (List.find?_some hf))

theorem recordPoll_inv (cfg : TreeCfg) (ps : SnowballParams) (hwf : cfg.WF)
    (s : TreeState) (t : List (Nat × Nat)) (h : TreeInv cfg s) :
    TreeInv cfg (s.recordPoll cfg ps t) := by
  rw [TreeState.recordPoll]
  apply acceptLoop_inv cfg ps hwf
  have hd := foldl_updateGroup_decisions cfg ps t cfg.ids s
  exact TreeInv.transport cfg hd.1 hd.2.1 hd.2.2 h

theorem runPollsTree_inv (cfg : TreeCfg) (ps : SnowballParams) (hwf : cfg.WF)
    (polls : List (List (Nat × Nat))) (s : TreeState) (h : TreeInv cfg s) :
    TreeInv cfg (runPollsTree cfg ps s polls) := by
  induction polls generalizing s with
  | nil => exact h
  | cons t polls ih =>
      exact ih _ (recordPoll_inv cfg ps hwf s t h)

theorem acceptLoop_acc_mono (cfg : TreeCfg) (ps : SnowballParams) :
    ∀ fuel (s : TreeState) (d : Nat), s.status d = Status.Accepted →
      (acceptLoop cfg ps fuel s).status d = Status.Accepted := by
  intro fuel
  induction fuel with
  | zero => exact fun s d h => h
  | succ n ih =>
      intro s d h
      rw [acceptLoop]
      cases hf : findAccept cfg ps s with
      | none => exact h
      | some x => exact ih _ d (doAccept_acc_mono cfg s x d h)

theorem recordPoll_acc_mono (cfg : TreeCfg) (ps : SnowballParams)
    (s : TreeState) (t : List (Nat × Nat)) (d : Nat)
    (h : s.status d = Status.Accepted) :
    (s.recordPoll cfg ps t).status d = Status.Accepted := by
  rw [TreeState.recordPoll, updateCounters]
  apply acceptLoop_acc_mono
  rw [(foldl_updateGroup_decisions cfg ps t cfg.ids s).1]
  exact h

theorem runPollsTree_acc_mono (cfg : TreeCfg) (ps : SnowballParams)
    (polls : List (List (Nat × Nat))) (s : TreeState) (d : Nat)
    (h : s.status d = Status.Accepted) :
    (runPollsTree cfg ps s polls).status d = Status.Accepted := by
  induction polls generalizing s with
  | nil => exact h
  | cons t polls ih =>
      exact ih _ (recordPoll_acc_mono cfg ps s t d h)

theorem runPollsTree_append (cfg : TreeCfg) (ps : SnowballParams)
    (s : TreeState) (l1 l2 : List (List (Nat × Nat))) :
    runPollsTree cfg ps s (l1 ++ l2)
      = runPollsTree cfg ps (runPollsTree cfg ps s l1) l2 := by
  simp [runPollsTree, List.foldl_append]

theorem inv_rej_desc (cfg : TreeCfg) (s : TreeState) (hwf : cfg.WF)
    (hinv : TreeInv cfg s) :
    ∀ n d, d ∈ cfg.ids → cfg.height d ≤ n →
      ∀ y ∈ cfg.ids, s.status y = Status.Rejected →
        y ∈ ancestorsOf cfg d → s.status d = Status.Rejected := by
  intro n
  induction n with
  | zero =>
      intro d hd hh y hy hyrej hmem
      have hdg : d = cfg.genesis :=
        eq_genesis_of_height_zero cfg hwf d hd (Nat.le_zero.mp hh)
      subst hdg
      rw [ancestorsOf_genesis cfg hwf] at hmem
      have hyg : y = cfg.genesis := by simpa using hmem
      rw [← hyg]
      exact hyrej
  | succ n ih =>
      intro d hd hh y hy hyrej hmem
      by_cases hyd : y = d
      · rw [← hyd]
        exact hyrej
      · have hdg : d ≠ cfg.genesis := by
          intro he
          subst he
          rw [ancestorsOf_genesis cfg hwf] at hmem
          exact hyd (by simpa using hmem)
        rw [ancestorsOf_eq_cons cfg hwf d hd hdg] at hmem
        have hmemp : y ∈ ancestorsOf cfg (cfg.parent d) := by
          rcases List.mem_cons.mp hmem with he | hm
          · exact absurd he hyd
          · exact hm
        obtain ⟨hpmem, hph⟩ := hwf.2.2.2 d hd hdg
        have hprej : s.status (cfg.parent d) = Status.Rejected :=
          ih (cfg.parent d) hpmem (by omega) y hy hyrej hmemp
        have hdp : d ≠ cfg.parent d := by
          intro he
          rw [← he] at hph
          omega
        exact hinv.rejChild (cfg.parent d) hpmem hprej d hd hdp rfl

theorem inv_anc_time (cfg : TreeCfg) (s : TreeState) (hwf : cfg.WF)
    (hinv : TreeInv cfg s) :
    ∀ n x, x ∈ cfg.ids → cfg.height x ≤ n → s.status x = Status.Accepted →
      ∀ a ∈ ancestorsOf cfg x, a ≠ x →
        s.status a = Status.Accepted
        ∧ ∃ ta tx, s.acceptedAt a = some ta ∧ s.acceptedAt x = some tx
          ∧ ta < tx := by
  intro n
  induction n with
  | zero =>
      intro x hx hh _ a hmem hax
      have hxg : x = cfg.genesis :=
        eq_genesis_of_height_zero cfg hwf x hx (Nat.le_zero.mp hh)
      subst hxg
      rw [ancestorsOf_genesis cfg hwf] at hmem
      exact absurd (by simpa using hmem) hax
  | succ n ih =>
      intro x hx hh hxacc a hmem hax
      by_cases hxg : x = cfg.genesis
      · subst hxg
        rw [ancestorsOf_genesis cfg hwf] at hmem
        exact absurd (by simpa using hmem) hax
      · rw [ancestorsOf_eq_cons cfg hwf x hx hxg] at hmem
        have hmemp : a ∈ ancestorsOf cfg (cfg.parent x) := by
          rcases List.mem_cons.mp hmem with he | hm
          · exact absurd he hax
          · exact hm
        obtain ⟨hpmem, hph⟩ := hwf.2.2.2 x hx hxg
        have hpacc : s.status (cfg.parent x) = Status.Accepted :=
          hinv.accParent x hx hxg hxacc
        obtain ⟨tp, tx, htp, htx, hlt⟩ := hinv.timeParent x hx hxg hxacc
        by_cases hap : a = cfg.parent x
        · subst hap
          exact ⟨hpacc, tp, tx, htp, htx, hlt⟩
        · obtain ⟨haacc, ta, tp2, hta, htp2, hlt2⟩ :=
            ih (cfg.parent x) hpmem (by omega) hpacc a hmemp hap
          rw [htp] at htp2
          have htpeq : tp2 = tp := by
            exact (Option.some.inj htp2).symm
          refine ⟨haacc, ta, tx, hta, htx, ?_⟩
          omega

/-- C1: over every well-formed item arena and every sequence of polls
applied to the Consensus Tree, if item x becomes Accepted then (1) no
sibling of x at the same height is Accepted after any further sequence of
polls, (2) every proper ancestor of x is Accepted with a strictly earlier
acceptance time than x, and (3) every sibling of x at that height is
Rejected, together with every admitted descendant of such a sibling. -/
theorem ConsensusTree_safety (cfg : TreeCfg) (ps : SnowballParams)
    (polls1 polls2 : List (List (Nat × Nat))) (x y a d : Nat)
    (hwf : cfg.WF) (hx : x ∈ cfg.ids)
    (hacc : (runPollsTree cfg ps (initState cfg) polls1).status x
      = Status.Accepted) :
    (y ∈ cfg.ids → siblingOf cfg y x →
      (runPollsTree cfg ps (initState cfg) (polls1 ++ polls2)).status y
        ≠ Status.Accepted)
    ∧ (a ∈ ancestorsOf cfg x → a ≠ x →
        (runPollsTree cfg ps (initState cfg) polls1).status a = Status.Accepted
        ∧ ∃ ta tx,
            (runPollsTree cfg ps (initState cfg) polls1).acceptedAt a = some ta
            ∧ (runPollsTree cfg ps (initState cfg) polls1).acceptedAt x = some tx
            ∧ ta < tx)
    ∧ (y ∈ cfg.ids → siblingOf cfg y x →
        (runPollsTree cfg ps (initState cfg) polls1).status y = Status.Rejected
        ∧ (d ∈ cfg.ids → ancestorOrSelf cfg y d = true →
            (runPollsTree cfg ps (initState cfg) polls1).status d
              = Status.Rejected)) := by
  have hinv1 : TreeInv cfg (runPollsTree cfg ps (initState cfg) polls1) :=
    runPollsTree_inv cfg ps hwf polls1 _ (initState_inv cfg hwf)
  refine ⟨?_, ?_, ?_⟩
  · intro hy hsib
    rw [runPollsTree_append]
    have hinv2 := runPollsTree_inv cfg ps hwf polls2 _ hinv1
    have hacc2 := runPollsTree_acc_mono cfg ps polls2 _ x hacc
    rw [hinv2.accSibRej x hx hacc2 y hy hsib]
    exact fun hcon => Status.noConfusion hcon
  · intro hmem hax
    exact inv_anc_time cfg _ hwf hinv1 (cfg.height x) x hx le_rfl hacc a hmem hax
  · intro hy hsib
    have hrej := hinv1.accSibRej x hx hacc y hy hsib
    refine ⟨hrej, fun hd hanc => ?_⟩
    exact inv_rej_desc cfg _ hwf hinv1 (cfg.height d) d hd le_rfl y hy hrej
      ((ancestorOrSelf_eq_true_iff cfg y d).mp hanc)

/-- A concrete four-item arena for the C1 witness: genesis 0 with
competing children 1 and 2, and item 3 a child of 1. -/
def witCfg : TreeCfg :=
  { ids := [0, 1, 2, 3]
    parent := fun n => if n = 3 then 1 else 0
    height := fun n => if n = 3 then 2 else if n = 0 then 0 else 1
    genesis := 0 }

/-- Concrete snowball parameters for the C1 witness. -/
def witPs : SnowballParams := ⟨1, 1, 2⟩

/-- Witness for C1: two polls voting for item 3 accept items 1 and 3 and
reject the competing sibling 2, which stays rejected under a later poll
voting for it. -/
theorem ConsensusTree_safety_witness :
    (witCfg.WF ∧ 1 ∈ witCfg.ids
      ∧ (runPollsTree witCfg witPs (initState witCfg)
          [[(3, 1)], [(3, 1)]]).status 1 = Status.Accepted)
    ∧ (runPollsTree witCfg witPs (initState witCfg)
        ([[(3, 1)], [(3, 1)]] ++ [[(2, 1)]])).status 2 ≠ Status.Accepted
    ∧ (runPollsTree witCfg witPs (initState witCfg)
        [[(3, 1)], [(3, 1)]]).status 2 = Status.Rejected := by
  have h := ConsensusTree_safety witCfg witPs [[(3, 1)], [(3, 1)]] [[(2, 1)]]
    1 2 0 2 (by decide) (by decide) (by decide)
  exact ⟨⟨by decide, by decide, by decide⟩, h.1 (by decide) (by decide),
    (h.2.2 (by decide) (by decide)).1⟩

end NetFlare
